import Mathlib

/-!
Shallow embedding of the dynamic-array container in `src/array.h` (class
`Array<T>`) and its demonstration driver `src/main.cpp`, together with proofs
of the specification's claims about it.

Modelling conventions:
* The buffer `T* data` (a contiguous allocation of `capacity` slots) is a
  `List α` whose length equals `capacity.toNat`; slots past `size` are
  allocated but logically empty.  `new T[n]` / `new T[n]()` is modelled by
  `List.replicate n default` (the contents of uninitialised slots are never
  observed, so a default value is adequate).
* `int` scalars that can be negative in observable guards (`capacity`, the
  `index` argument of `operator[]`, `minCapacity`) are `Int`.  The `size`
  field is carried as `Nat`: every mutation of `size` in the source is guarded
  so that it never becomes negative, and it is cast to `Int` wherever the
  source compares it with an `int`.
* The capacity-doubling `while` loop is written with an explicit fuel
  argument (`growLoopFuel`) so that it is structurally recursive and hence
  computable by the kernel; `growLoop` instantiates the fuel with
  `minCapacity.toNat`, which is proved sufficient whenever the starting value
  is positive (`growLoop_eq` recovers the loop's defining equation).
* Exceptions are modelled with `Except`.  The source throws
  `std::out_of_range` at four sites; following the specification's error
  taxonomy, the two sites guarding `index` are `outOfRange` and the two
  sites guarding empty `pop`/`shift` are `emptyContainer`.
* The pointer-identity tests `this == &other` / `this != &other` in the
  assignment operators are modelled by an explicit `sameObject : Bool` flag.
-/

set_option linter.unusedSectionVars false

namespace CppArray

variable {α : Type} [Inhabited α]

/-- Error kinds surfaced by the container (see §7 of the specification). -/
inductive ArrErr : Type where
  | outOfRange : ArrErr
  | emptyContainer : ArrErr
deriving DecidableEq

/-- The state of an `Array<T>` object: `T* data; int size; int capacity;`. -/
structure Arr (α : Type) : Type where
  data : List α
  size : Nat
  capacity : Int
deriving DecidableEq

/-- Reachable-state invariant: `size ≤ capacity` and the buffer really has
`capacity` slots (hence also `0 ≤ capacity`). -/
def wf (a : Arr α) : Prop :=
  (a.size : Int) ≤ a.capacity ∧ a.data.length = a.capacity.toNat

/-- The logically present elements: slots `[0, size)` of the buffer. -/
def liveElems (a : Arr α) : List α :=
  a.data.take a.size

/-- The body of `while (newCapacity < minCapacity) newCapacity *= 2;`,
iterated at most `fuel` times. -/
def growLoopFuel : Nat → Int → Int → Int
  | 0, newCapacity, _ => newCapacity
  | fuel + 1, newCapacity, minCapacity =>
    if newCapacity < minCapacity then growLoopFuel fuel (newCapacity * 2) minCapacity
    else newCapacity

/-- The doubling loop of `ensureCapacity`, run from the starting value
`newCapacity`.  The fuel `minCapacity.toNat` is sufficient for every positive
starting value (lemma `growLoop_eq`), which covers every reachable call. -/
def growLoop (newCapacity minCapacity : Int) : Int :=
  growLoopFuel minCapacity.toNat newCapacity minCapacity

/-- The element-copy loop of `ensureCapacity`:
`for (int i = 0; i < size; ++i) newData[i] = data[i];`. -/
def copyInto (dst src : List α) : Nat → List α
  | 0 => dst
  | n + 1 => (copyInto dst src n).set n (src.getD n default)

/-- `Array<T>::ensureCapacity(int minCapacity)`. -/
def ensureCapacity (a : Arr α) (minCapacity : Int) : Arr α :=
  if minCapacity ≤ a.capacity then a
  else
    let newCapacity := growLoop (if 0 < a.capacity then a.capacity * 2 else 1) minCapacity
    { data := copyInto (List.replicate newCapacity.toNat default) a.data a.size
      size := a.size
      capacity := newCapacity }

/-- The constructor `Array(int initialCapacity = 4)`:
`data(new T[initialCapacity]()), size(0), capacity(initialCapacity)`. -/
def mkArray (initialCapacity : Int) : Arr α :=
  { data := List.replicate initialCapacity.toNat default
    size := 0
    capacity := initialCapacity }

/-- `Array<T>::push(const T&)`: `ensureCapacity(size + 1); data[size++] = value;`. -/
def push (a : Arr α) (value : α) : Arr α :=
  let a' := ensureCapacity a ((a.size : Int) + 1)
  { a' with data := a'.data.set a'.size value, size := a'.size + 1 }

/-- `Array<T>::pop()`: throws on empty, otherwise `return data[--size];`. -/
def pop (a : Arr α) : Except ArrErr (α × Arr α) :=
  if a.size = 0 then .error .emptyContainer
  else .ok (a.data.getD (a.size - 1) default, { a with size := a.size - 1 })

/-- The shifting loop of `unshift`:
`for (int i = size; i > 0; --i) data[i] = data[i - 1];`, entered at `i = n`. -/
def shiftRightLoop (d : List α) : Nat → List α
  | 0 => d
  | i + 1 => shiftRightLoop (d.set (i + 1) (d.getD i default)) i

/-- `Array<T>::unshift(const T&)`. -/
def unshift (a : Arr α) (value : α) : Arr α :=
  let a' := ensureCapacity a ((a.size : Int) + 1)
  { a' with data := (shiftRightLoop a'.data a'.size).set 0 value, size := a'.size + 1 }

/-- The shifting loop of `shift`:
`for (int i = 1; i < size; ++i) data[i - 1] = data[i];`, written with the
current index `i` and the count of remaining iterations (`size - 1` at entry). -/
def shiftLeftLoop (d : List α) (i : Nat) : Nat → List α
  | 0 => d
  | rest + 1 => shiftLeftLoop (d.set (i - 1) (d.getD i default)) (i + 1) rest

/-- `Array<T>::shift()`: throws on empty, otherwise captures `data[0]`, shifts
the remaining elements left, and decrements `size`. -/
def shift (a : Arr α) : Except ArrErr (α × Arr α) :=
  if a.size = 0 then .error .emptyContainer
  else
    .ok (a.data.getD 0 default,
         { a with data := shiftLeftLoop a.data 1 (a.size - 1), size := a.size - 1 })

/-- `Array<T>::operator[](int index)` (and its `const` overload, which has the
same guard and reads the same slot): bounds-checked element access. -/
def opIndex (a : Arr α) (index : Int) : Except ArrErr α :=
  if index < 0 ∨ (a.size : Int) ≤ index then .error .outOfRange
  else .ok (a.data.getD index.toNat default)

/-- The scan of `findIndex`: `for (int i = 0; i < size; ++i) if (pred(data[i]))
return i; return -1;`, expressed over the live slots with the running index. -/
def findIndexGo (pred : α → Bool) : List α → Int → Int
  | [], _ => -1
  | x :: xs, i => if pred x then i else findIndexGo pred xs (i + 1)

/-- `Array<T>::findIndex(Predicate)`. -/
def findIndex (a : Arr α) (pred : α → Bool) : Int :=
  findIndexGo pred (a.data.take a.size) 0

/-- The scan of `find`, expressed over the live slots; the source returns a
pointer to the matching slot or `nullptr`, modelled as `Option α`. -/
def findGo (pred : α → Bool) : List α → Option α
  | [] => none
  | x :: xs => if pred x then some x else findGo pred xs

/-- `Array<T>::find(Predicate)`. -/
def find (a : Arr α) (pred : α → Bool) : Option α :=
  findGo pred (a.data.take a.size)

/-- `Array<T>::operator=(const Array&)` (copy assignment).  The source first
guards `if (this == &other) return *this;`; pointer identity is modelled by
the `sameObject` flag, true exactly when source and destination are the same
object.  In the non-aliased path the source allocates `new T[other.capacity]()`
and copies `other.size` elements (and then falls off the end without a
`return` statement — a defect that does not affect the assigned-to state). -/
def copyAssign (dst src : Arr α) (sameObject : Bool) : Arr α :=
  if sameObject then dst
  else
    { data := copyInto (List.replicate src.capacity.toNat default) src.data src.size
      size := src.size
      capacity := src.capacity }

/-- `Array<T>::operator=(Array&&)` (move assignment).  Guarded by
`if (this != &other)`; returns the pair (destination state, source state). -/
def moveAssign (dst src : Arr α) (sameObject : Bool) : Arr α × Arr α :=
  if sameObject then (dst, src)
  else
    ({ data := src.data, size := src.size, capacity := src.capacity },
     { data := [], size := 0, capacity := 0 })

/-- A sequence of `push` calls on a container constructed with
`Array<int> arr(initialCapacity)`. -/
def pushSeq (initialCapacity : Int) (vs : List α) : Arr α :=
  vs.foldl push (mkArray initialCapacity)

/-- Reduction of a mathematical integer to a 32-bit two's-complement `int`
value, used to study the doubling loop under machine arithmetic. -/
def wrap32 (x : Int) : Int :=
  (x + 2 ^ 31) % 2 ^ 32 - 2 ^ 31

/-- One iteration of the loop body `newCapacity *= 2;` under 32-bit
two's-complement wraparound arithmetic. -/
def step32 (x : Int) : Int :=
  wrap32 (x * 2)

/-- Invariant of the wrapped doubling iteration started at `2` (the entry
value of `ensureCapacity`'s loop for `capacity == 1`): the running value is
`0`, `-2^31`, or a power of two between `2^1` and `2^30`. -/
def inv32 (x : Int) : Prop :=
  x = 0 ∨ x = -(2 ^ 31) ∨ ∃ j : Nat, 1 ≤ j ∧ j ≤ 30 ∧ x = 2 ^ j

/-- `cap` is the smallest capacity of the form `max C 1 · 2^k` that is at
least `n` — the growth-invariant shape stated in §8 of the specification. -/
def minChainCap (C : Int) (n : Nat) (cap : Int) : Prop :=
  (∃ k : Nat, cap = max C 1 * 2 ^ k) ∧ (n : Int) ≤ cap ∧
    ∀ j : Nat, (n : Int) ≤ max C 1 * 2 ^ j → cap ≤ max C 1 * 2 ^ j

/-- The per-state invariant maintained by any sequence of `push` calls on a
container created with initial capacity `C`. -/
def pushInv (C : Int) (a : Arr α) : Prop :=
  wf a ∧ (a.size = 0 → a.capacity = C) ∧
    (1 ≤ a.size → minChainCap C a.size a.capacity)

/-- Driver state after `Array<int> arr(5);` and `push(1); push(2); push(3);`. -/
def arrStage1 : Arr Int := pushSeq 5 [1, 2, 3]

/-- Driver state after three further pushes `4, 5, 6`. -/
def arrStage2 : Arr Int := pushSeq 5 [1, 2, 3, 4, 5, 6]

/-- Driver state after three further pushes `1, 2, 3`. -/
def arrStage3 : Arr Int := pushSeq 5 [1, 2, 3, 4, 5, 6, 1, 2, 3]

/-- Driver state after `unshift(0)`. -/
def arrStage4 : Arr Int := unshift arrStage3 0

/-- The driver's `arr.pop(); arr.shift();` tail: the popped value, the
shifted value, and the final container state. -/
def driverFinal : Except ArrErr (Int × Int × Arr Int) :=
  (pop arrStage4).bind fun p => (shift p.2).map fun q => (p.1, q.1, q.2)

/-! ### List access helpers -/

theorem getD_set (l : List α) (i j : Nat) (v d : α) :
    (l.set i v).getD j d = if i = j ∧ j < l.length then v else l.getD j d := by
  induction l generalizing i j with
  | nil => simp [List.getD]
  | cons x xs ih =>
    cases i with
    | zero =>
      cases j with
      | zero => simp
      | succ j => simp
    | succ i =>
      cases j with
      | zero => simp
      | succ j =>
        simp only [List.set_cons_succ, List.getD_cons_succ, List.length_cons]
        rw [ih i j]
        by_cases h : i = j ∧ j < xs.length
        · rw [if_pos h, if_pos (by omega)]
        · rw [if_neg h, if_neg (by omega)]

theorem take_ext (n : Nat) (l₁ l₂ : List α) (d : α) (h₁ : n ≤ l₁.length)
    (h₂ : n ≤ l₂.length) (h : ∀ j, j < n → l₁.getD j d = l₂.getD j d) :
    l₁.take n = l₂.take n := by
  induction n generalizing l₁ l₂ with
  | zero => simp
  | succ n ih =>
    cases l₁ with
    | nil => simp at h₁
    | cons x xs =>
      cases l₂ with
      | nil => simp at h₂
      | cons y ys =>
        have hx : x = y := by simpa using h 0 (Nat.succ_pos n)
        simp only [List.take_succ_cons]
        rw [hx, ih xs ys (by simpa using h₁) (by simpa using h₂)
          (fun j hj => by simpa using h (j + 1) (by omega))]

theorem getD_take (l : List α) (n j : Nat) (d : α) (h : j < n) :
    (l.take n).getD j d = l.getD j d := by
  simp [List.getD_eq_getD_get?, List.get?_eq_getElem?, List.getElem?_take, h]

theorem getD_drop (l : List α) (i j : Nat) (d : α) :
    (l.drop i).getD j d = l.getD (i + j) d := by
  simp [List.getD_eq_getD_get?, List.get?_eq_getElem?, List.getElem?_drop]

theorem take_succ_getD (l : List α) (n : Nat) (d : α) (h : n < l.length) :
    l.take (n + 1) = l.take n ++ [l.getD n d] := by
  rw [List.take_succ]
  congr 1
  rw [List.getD_eq_getElem l d h]
  simp [List.getElem?_eq_getElem h]

theorem getD_replicate (n j : Nat) (v d : α) (h : j < n) :
    (List.replicate n v).getD j d = v := by
  rw [List.getD_eq_getElem _ _ (by simpa using h)]
  exact List.getElem_replicate ..

/-! ### Loop lemmas -/

theorem copyInto_length (dst src : List α) (n : Nat) :
    (copyInto dst src n).length = dst.length := by
  induction n with
  | zero => rfl
  | succ n ih => rw [copyInto, List.length_set, ih]

theorem copyInto_getD (dst src : List α) (n j : Nat) (h : n ≤ dst.length) :
    (copyInto dst src n).getD j default =
      if j < n then src.getD j default else dst.getD j default := by
  induction n with
  | zero => simp [copyInto]
  | succ n ih =>
    rw [copyInto, getD_set, copyInto_length]
    by_cases hc : n = j ∧ j < dst.length
    · rw [if_pos hc, if_pos (by omega), hc.1]
    · rw [if_neg hc, ih (by omega)]
      by_cases hj : j < n
      · rw [if_pos hj, if_pos (by omega)]
      · rw [if_neg hj, if_neg (by omega)]

theorem shiftRightLoop_length (d : List α) (n : Nat) :
    (shiftRightLoop d n).length = d.length := by
  induction n generalizing d with
  | zero => rfl
  | succ n ih => rw [shiftRightLoop, ih, List.length_set]

theorem shiftRightLoop_getD (d : List α) (n j : Nat) (h : n < d.length) :
    (shiftRightLoop d n).getD j default =
      if 1 ≤ j ∧ j ≤ n then d.getD (j - 1) default else d.getD j default := by
  induction n generalizing d with
  | zero =>
    rw [shiftRightLoop, if_neg (by omega)]
  | succ n ih =>
    rw [shiftRightLoop, ih _ (by rw [List.length_set]; omega)]
    by_cases h1 : 1 ≤ j ∧ j ≤ n
    · rw [if_pos h1, getD_set, if_neg (by omega), if_pos (by omega)]
    · rw [if_neg h1, getD_set]
      by_cases h2 : j = n + 1
      · subst h2
        rw [if_pos ⟨rfl, h⟩, if_pos (by omega)]
        simp
      · rw [if_neg (by omega), if_neg (by omega)]

theorem shiftLeftLoop_length (d : List α) (i rest : Nat) :
    (shiftLeftLoop d i rest).length = d.length := by
  induction rest generalizing d i with
  | zero => rfl
  | succ rest ih => rw [shiftLeftLoop, ih, List.length_set]

theorem shiftLeftLoop_getD (d : List α) (i rest j : Nat) (hi : 1 ≤ i)
    (hlen : i + rest ≤ d.length) :
    (shiftLeftLoop d i rest).getD j default =
      if i - 1 ≤ j ∧ j < i - 1 + rest then d.getD (j + 1) default
      else d.getD j default := by
  induction rest generalizing d i with
  | zero =>
    rw [shiftLeftLoop, if_neg (by omega)]
  | succ rest ih =>
    rw [shiftLeftLoop, ih _ (i + 1) (by omega) (by rw [List.length_set]; omega)]
    by_cases hc : i ≤ j ∧ j < i + rest
    · rw [if_pos (by omega), getD_set, if_neg (by omega), if_pos (by omega)]
    · rw [if_neg (by omega), getD_set]
      by_cases hj : j = i - 1
      · subst hj
        rw [if_pos ⟨rfl, by omega⟩, if_pos (by omega)]
        have hii : i - 1 + 1 = i := by omega
        rw [hii]
      · rw [if_neg (by omega), if_neg (by omega)]

/-! ### The capacity-doubling loop -/

theorem growLoopFuel_zero (n m : Int) : growLoopFuel 0 n m = n := rfl

theorem growLoopFuel_succ (fuel : Nat) (n m : Int) :
    growLoopFuel (fuel + 1) n m =
      if n < m then growLoopFuel fuel (n * 2) m else n := rfl

/-- One unit of surplus fuel changes nothing once the fuel dominates `m - n`:
from a positive start, each doubling increases the value by at least one. -/
theorem growLoopFuel_succ_eq (fuel : Nat) (n m : Int) (hn : 0 < n)
    (hf : m - n ≤ (fuel : Int)) :
    growLoopFuel (fuel + 1) n m = growLoopFuel fuel n m := by
  induction fuel generalizing n with
  | zero =>
    rw [growLoopFuel_succ, if_neg (by omega)]
    rfl
  | succ fuel ih =>
    rw [growLoopFuel_succ, growLoopFuel_succ fuel n m]
    by_cases h : n < m
    · rw [if_pos h, if_pos h, ih (n * 2) (by omega) (by push_cast at hf ⊢; omega)]
    · rw [if_neg h, if_neg h]

theorem growLoopFuel_stable (f g : Nat) (n m : Int) (hn : 0 < n)
    (hf : m - n ≤ (f : Int)) (hfg : f ≤ g) :
    growLoopFuel g n m = growLoopFuel f n m := by
  induction g with
  | zero =>
    have : f = 0 := by omega
    rw [this]
  | succ g ih =>
    by_cases h : f = g + 1
    · rw [h]
    · have hg : f ≤ g := by omega
      rw [growLoopFuel_succ_eq g n m hn (by omega), ih hg]

/-- For a positive starting value the chosen fuel is sufficient: `growLoop`
satisfies the defining equation of `while (newCapacity < minCapacity)
newCapacity *= 2;`. -/
theorem growLoop_eq (n m : Int) (hn : 0 < n) :
    growLoop n m = if n < m then growLoop (n * 2) m else n := by
  by_cases h : n < m
  · rw [if_pos h]
    have h1 : m.toNat = (m.toNat - 1) + 1 := by omega
    unfold growLoop
    rw [h1, growLoopFuel_succ, if_pos h]
    exact (growLoopFuel_stable (m.toNat - 1) ((m.toNat - 1) + 1) (n * 2) m
      (by omega) (by omega) (by omega)).symm
  · rw [if_neg h]
    unfold growLoop
    rw [growLoopFuel_stable 0 m.toNat n m hn (by omega) (by omega)]
    rfl

theorem growLoop_of_ge (n m : Int) (hn : 0 < n) (h : m ≤ n) : growLoop n m = n := by
  rw [growLoop_eq n m hn, if_neg (by omega)]

theorem le_mul_two_pow (n : Int) (j : Nat) (hn : 0 < n) : n ≤ n * 2 ^ j := by
  have h2 : (0 : Int) < 2 ^ j := pow_pos (by norm_num) j
  nlinarith

theorem growLoop_base (n m : Int) (hn : 0 < n) (h : m ≤ n) :
    (∃ k : Nat, growLoop n m = n * 2 ^ k) ∧ m ≤ growLoop n m ∧ n ≤ growLoop n m ∧
      ∀ j : Nat, m ≤ n * 2 ^ j → growLoop n m ≤ n * 2 ^ j := by
  rw [growLoop_of_ge n m hn h]
  exact ⟨⟨0, by ring⟩, h, le_refl n, fun j _ => le_mul_two_pow n j hn⟩

theorem growLoop_spec_aux (fuel : Nat) : ∀ (n m : Int), 0 < n → (m - n).toNat ≤ fuel →
    (∃ k : Nat, growLoop n m = n * 2 ^ k) ∧ m ≤ growLoop n m ∧ n ≤ growLoop n m ∧
      ∀ j : Nat, m ≤ n * 2 ^ j → growLoop n m ≤ n * 2 ^ j := by
  induction fuel with
  | zero =>
    intro n m hn hf
    exact growLoop_base n m hn (by omega)
  | succ fuel ih =>
    intro n m hn hf
    by_cases h : n < m
    · rw [growLoop_eq n m hn, if_pos h]
      obtain ⟨⟨k, hk⟩, hm, hge, hmin⟩ := ih (n * 2) m (by omega) (by omega)
      refine ⟨⟨k + 1, by rw [hk]; ring⟩, hm, by omega, ?_⟩
      intro j hj
      cases j with
      | zero =>
        simp only [pow_zero, mul_one] at hj
        omega
      | succ j =>
        have hj' : m ≤ (n * 2) * 2 ^ j := by
          calc m ≤ n * 2 ^ (j + 1) := hj
          _ = (n * 2) * 2 ^ j := by ring
        calc growLoop (n * 2) m ≤ (n * 2) * 2 ^ j := hmin j hj'
        _ = n * 2 ^ (j + 1) := by ring
    · exact growLoop_base n m hn (by omega)

/-- The doubling loop, run from a positive start `n`, returns `n` scaled by
the least power of two that reaches `minCapacity` (and at least `n` itself). -/
theorem growLoop_spec (n m : Int) (hn : 0 < n) :
    (∃ k : Nat, growLoop n m = n * 2 ^ k) ∧ m ≤ growLoop n m ∧ n ≤ growLoop n m ∧
      ∀ j : Nat, m ≤ n * 2 ^ j → growLoop n m ≤ n * 2 ^ j :=
  growLoop_spec_aux (m - n).toNat n m hn le_rfl

/-! ### Operation-level lemmas -/

theorem size_le_data_length (a : Arr α) (h : wf a) : a.size ≤ a.data.length := by
  obtain ⟨h1, h2⟩ := h
  omega

theorem liveElems_length (a : Arr α) (h : wf a) : (liveElems a).length = a.size := by
  unfold liveElems
  rw [List.length_take]
  exact Nat.min_eq_left (size_le_data_length a h)

theorem getD_liveElems (a : Arr α) (j : Nat) (hj : j < a.size) :
    (liveElems a).getD j default = a.data.getD j default :=
  getD_take a.data a.size j default hj

theorem ensureCapacity_noop (a : Arr α) (m : Int) (hc : m ≤ a.capacity) :
    ensureCapacity a m = a := by
  unfold ensureCapacity
  rw [if_pos hc]

theorem ensureCapacity_grow (a : Arr α) (m : Int) (hc : ¬ m ≤ a.capacity) :
    ensureCapacity a m =
      { data := copyInto
          (List.replicate (growLoop (if 0 < a.capacity then a.capacity * 2 else 1) m).toNat
            default) a.data a.size
        size := a.size
        capacity := growLoop (if 0 < a.capacity then a.capacity * 2 else 1) m } := by
  unfold ensureCapacity
  rw [if_neg hc]

theorem ensureCapacity_core (a : Arr α) (m : Int) (h : wf a) :
    wf (ensureCapacity a m) ∧ (ensureCapacity a m).size = a.size ∧
      liveElems (ensureCapacity a m) = liveElems a ∧
      a.capacity ≤ (ensureCapacity a m).capacity ∧ m ≤ (ensureCapacity a m).capacity := by
  by_cases hc : m ≤ a.capacity
  · rw [ensureCapacity_noop a m hc]
    exact ⟨h, rfl, rfl, le_refl _, hc⟩
  · rw [ensureCapacity_grow a m hc]
    set n0 : Int := if 0 < a.capacity then a.capacity * 2 else 1 with hn0
    have hcap0 : (0 : Int) ≤ a.capacity := le_trans (Int.ofNat_nonneg a.size) h.1
    have hn0pos : 0 < n0 := by rw [hn0]; split <;> omega
    obtain ⟨⟨k, hk⟩, hm, hge, hmin⟩ := growLoop_spec n0 m hn0pos
    have hcap_le : a.capacity ≤ growLoop n0 m := by
      refine le_trans ?_ hge
      rw [hn0]; split <;> omega
    have hsize_lt : a.size < (growLoop n0 m).toNat := by
      have h1 := h.1
      omega
    refine ⟨⟨?_, ?_⟩, rfl, ?_, hcap_le, hm⟩
    · exact le_trans h.1 hcap_le
    · simp only [copyInto_length, List.length_replicate]
    · show (copyInto (List.replicate (growLoop n0 m).toNat default) a.data a.size).take a.size
        = a.data.take a.size
      refine take_ext a.size _ _ default ?_ ?_ ?_
      · rw [copyInto_length, List.length_replicate]; omega
      · exact size_le_data_length a h
      · intro j hj
        rw [copyInto_getD _ _ _ _ (by rw [List.length_replicate]; omega), if_pos hj]

theorem take_eq_list (l ws : List α) (d : α) (h₁ : ws.length ≤ l.length)
    (h : ∀ j, j < ws.length → l.getD j d = ws.getD j d) : l.take ws.length = ws := by
  have := take_ext ws.length l ws d h₁ le_rfl h
  rwa [List.take_length] at this

theorem push_eq (a : Arr α) (v : α) :
    push a v = { ensureCapacity a ((a.size : Int) + 1) with
      data := (ensureCapacity a ((a.size : Int) + 1)).data.set
        (ensureCapacity a ((a.size : Int) + 1)).size v
      size := (ensureCapacity a ((a.size : Int) + 1)).size + 1 } := rfl

theorem push_spec (a : Arr α) (v : α) (h : wf a) :
    wf (push a v) ∧ (push a v).size = a.size + 1 ∧
      liveElems (push a v) = liveElems a ++ [v] ∧
      a.capacity ≤ (push a v).capacity ∧
      (push a v).capacity = (ensureCapacity a ((a.size : Int) + 1)).capacity ∧
      (push a v).data.getD a.size default = v ∧
      (push a v).data.take a.size = liveElems a := by
  obtain ⟨hwfE, hsE, hlE, hcE, hmE⟩ := ensureCapacity_core a ((a.size : Int) + 1) h
  rw [push_eq]
  set E := ensureCapacity a ((a.size : Int) + 1) with hE
  rw [hsE]
  have hElen : a.size < E.data.length := by
    have h1 := hwfE.2
    omega
  have hliveE : liveElems a = E.data.take a.size := by
    rw [← hlE]
    unfold liveElems
    rw [hsE]
  have htake : (E.data.set a.size v).take a.size = liveElems a := by
    rw [hliveE]
    refine take_ext a.size _ _ (default : α) ?_ (by omega) ?_
    · rw [List.length_set]; omega
    · intro j hj
      rw [getD_set, if_neg (by omega)]
  refine ⟨⟨by push_cast; omega, by rw [List.length_set]; exact hwfE.2⟩, rfl, ?_, hcE, rfl,
    by rw [getD_set, if_pos ⟨rfl, hElen⟩], htake⟩
  show (E.data.set a.size v).take (a.size + 1) = liveElems a ++ [v]
  rw [take_succ_getD _ _ default (by rw [List.length_set]; omega),
    getD_set, if_pos ⟨rfl, hElen⟩, htake]

theorem pop_ok (a : Arr α) (hne : a.size ≠ 0) :
    pop a = .ok (a.data.getD (a.size - 1) default, { a with size := a.size - 1 }) := by
  unfold pop
  rw [if_neg hne]

theorem unshift_eq (a : Arr α) (v : α) :
    unshift a v = { ensureCapacity a ((a.size : Int) + 1) with
      data := (shiftRightLoop (ensureCapacity a ((a.size : Int) + 1)).data
        (ensureCapacity a ((a.size : Int) + 1)).size).set 0 v
      size := (ensureCapacity a ((a.size : Int) + 1)).size + 1 } := rfl

theorem unshift_spec (a : Arr α) (v : α) (h : wf a) :
    wf (unshift a v) ∧ (unshift a v).size = a.size + 1 ∧
      liveElems (unshift a v) = v :: liveElems a ∧
      a.capacity ≤ (unshift a v).capacity := by
  obtain ⟨hwfE, hsE, hlE, hcE, hmE⟩ := ensureCapacity_core a ((a.size : Int) + 1) h
  rw [unshift_eq]
  set E := ensureCapacity a ((a.size : Int) + 1) with hE
  rw [hsE]
  have hElen : a.size < E.data.length := by
    have h1 := hwfE.2
    omega
  have hdlen : ((shiftRightLoop E.data a.size).set 0 v).length = E.data.length := by
    rw [List.length_set, shiftRightLoop_length]
  refine ⟨⟨by push_cast; omega, by rw [hdlen]; exact hwfE.2⟩, rfl, ?_, hcE⟩
  show ((shiftRightLoop E.data a.size).set 0 v).take (a.size + 1) = v :: liveElems a
  have htarget : (v :: liveElems a).length = a.size + 1 := by
    rw [List.length_cons, liveElems_length a h]
  rw [← htarget]
  refine take_eq_list _ _ (default : α) (by rw [htarget, hdlen]; omega) ?_
  intro j hj
  rw [htarget] at hj
  cases j with
  | zero =>
    rw [getD_set, if_pos ⟨rfl, by rw [shiftRightLoop_length]; omega⟩]
    rfl
  | succ j =>
    rw [getD_set, if_neg (by omega),
      shiftRightLoop_getD E.data a.size (j + 1) hElen, if_pos (by omega)]
    show E.data.getD j default = (v :: liveElems a).getD (j + 1) default
    rw [List.getD_cons_succ, ← hlE, getD_liveElems E j (by omega)]

theorem shift_spec (a : Arr α) (h : wf a) (hne : a.size ≠ 0) :
    shift a = .ok ((liveElems a).getD 0 default,
      { a with data := shiftLeftLoop a.data 1 (a.size - 1), size := a.size - 1 }) ∧
    wf { a with data := shiftLeftLoop a.data 1 (a.size - 1), size := a.size - 1 } ∧
    liveElems { a with data := shiftLeftLoop a.data 1 (a.size - 1), size := a.size - 1 }
      = (liveElems a).drop 1 := by
  have hlen := size_le_data_length a h
  have h1 := h.1
  refine ⟨?_, ⟨by push_cast; omega,
    by rw [shiftLeftLoop_length]; exact h.2⟩, ?_⟩
  · unfold shift
    rw [if_neg hne, getD_liveElems a 0 (by omega)]
  · show (shiftLeftLoop a.data 1 (a.size - 1)).take (a.size - 1) = (liveElems a).drop 1
    unfold liveElems
    rw [List.drop_take]
    refine take_ext (a.size - 1) _ _ (default : α) (by rw [shiftLeftLoop_length]; omega)
      (by rw [List.length_drop]; omega) ?_
    intro j hj
    rw [shiftLeftLoop_getD a.data 1 (a.size - 1) j le_rfl (by omega), if_pos (by omega),
      getD_drop, Nat.add_comm]

/-! ### Claims -/

/-- C1: on any reachable container state, `ensureCapacity(minCapacity)` is a
no-op when `capacity ≥ minCapacity`; otherwise it sets `capacity` to the value
obtained by starting from `max(capacity, 1)` and repeatedly doubling until it
is `≥ minCapacity` (that is, the least value of the form `max(capacity,1)·2^k`
that is `≥ minCapacity`), while the first `length` elements are preserved
unchanged and in order. -/
theorem ensureCapacity_correct (a : Arr α) (minCapacity : Int) (h : wf a) :
    (minCapacity ≤ a.capacity → ensureCapacity a minCapacity = a) ∧
    (a.capacity < minCapacity →
      (∃ k : Nat, (ensureCapacity a minCapacity).capacity = max a.capacity 1 * 2 ^ k) ∧
      minCapacity ≤ (ensureCapacity a minCapacity).capacity ∧
      (∀ j : Nat, minCapacity ≤ max a.capacity 1 * 2 ^ j →
        (ensureCapacity a minCapacity).capacity ≤ max a.capacity 1 * 2 ^ j) ∧
      (ensureCapacity a minCapacity).size = a.size ∧
      liveElems (ensureCapacity a minCapacity) = liveElems a) := by
  refine ⟨fun hc => ensureCapacity_noop a minCapacity hc, fun hc => ?_⟩
  obtain ⟨hwfE, hsE, hlE, hcE, hmE⟩ := ensureCapacity_core a minCapacity h
  have hcap0 : (0 : Int) ≤ a.capacity := le_trans (Int.ofNat_nonneg a.size) h.1
  have hcapeq : (ensureCapacity a minCapacity).capacity =
      growLoop (if 0 < a.capacity then a.capacity * 2 else 1) minCapacity := by
    rw [ensureCapacity_grow a minCapacity (by omega)]
  by_cases hpos : 0 < a.capacity
  · rw [if_pos hpos] at hcapeq
    obtain ⟨⟨k, hk⟩, hm, hge, hmin⟩ := growLoop_spec (a.capacity * 2) minCapacity (by omega)
    have hB : max a.capacity 1 = a.capacity := max_eq_left (by omega)
    refine ⟨⟨k + 1, by rw [hcapeq, hk, hB]; ring⟩, hmE, ?_, hsE, hlE⟩
    intro j hj
    rw [hB] at hj ⊢
    cases j with
    | zero =>
      rw [pow_zero, mul_one] at hj ⊢
      omega
    | succ j =>
      rw [hcapeq]
      calc growLoop (a.capacity * 2) minCapacity ≤ a.capacity * 2 * 2 ^ j :=
        hmin j (le_trans hj (le_of_eq (by ring)))
      _ = a.capacity * 2 ^ (j + 1) := by ring
  · rw [if_neg hpos] at hcapeq
    obtain ⟨⟨k, hk⟩, hm, hge, hmin⟩ := growLoop_spec 1 minCapacity (by omega)
    have hB : max a.capacity 1 = 1 := max_eq_right (by omega)
    refine ⟨⟨k, by rw [hcapeq, hk, hB]⟩, hmE, ?_, hsE, hlE⟩
    intro j hj
    rw [hB] at hj ⊢
    rw [hcapeq]
    exact hmin j hj

/-- Witness for C1: a freshly constructed `Array<int> arr(5)` grown to hold
`7` elements doubles its capacity as specified. -/
theorem ensureCapacity_correct_witness :
    wf (mkArray 5 : Arr Int) ∧ (mkArray 5 : Arr Int).capacity < 7 ∧
    ((∃ k : Nat, (ensureCapacity (mkArray 5 : Arr Int) 7).capacity =
        max (mkArray 5 : Arr Int).capacity 1 * 2 ^ k) ∧
      7 ≤ (ensureCapacity (mkArray 5 : Arr Int) 7).capacity ∧
      (∀ j : Nat, 7 ≤ max (mkArray 5 : Arr Int).capacity 1 * 2 ^ j →
        (ensureCapacity (mkArray 5 : Arr Int) 7).capacity ≤
          max (mkArray 5 : Arr Int).capacity 1 * 2 ^ j) ∧
      (ensureCapacity (mkArray 5 : Arr Int) 7).size = (mkArray 5 : Arr Int).size ∧
      liveElems (ensureCapacity (mkArray 5 : Arr Int) 7) =
        liveElems (mkArray 5 : Arr Int)) :=
  ⟨⟨by decide, by decide⟩, by decide,
    (ensureCapacity_correct (mkArray 5 : Arr Int) 7 ⟨by decide, by decide⟩).2 (by decide)⟩

/-- C3: copy-assigning a container to itself (`a = a`) takes the guarded path
`if (this == &other) return *this;` of `operator=`, so it is a no-op that
leaves the container valid and unchanged: same length, capacity, and
elements. -/
theorem copyAssign_self_noop (a : Arr α) :
    copyAssign a a true = a ∧ (copyAssign a a true).size = a.size ∧
      (copyAssign a a true).capacity = a.capacity ∧
      liveElems (copyAssign a a true) = liveElems a :=
  ⟨rfl, rfl, rfl, rfl⟩

/-- C6: `operator[]` (both overloads share this guard and read) fails with
`OutOfRange` exactly when `index < 0` or `index ≥ size`, and on success
returns the element at position `index` of the live region `[0, size)` —
slots between `size` and `capacity` are never index-addressable.  The access
mutates nothing: it is a pure read of the container state. -/
theorem opIndex_correct (a : Arr α) (index : Int) :
    (opIndex a index = .error ArrErr.outOfRange ↔
      index < 0 ∨ (a.size : Int) ≤ index) ∧
    (¬ (index < 0 ∨ (a.size : Int) ≤ index) →
      opIndex a index = .ok ((liveElems a).getD index.toNat default)) := by
  unfold opIndex
  by_cases hc : index < 0 ∨ (a.size : Int) ≤ index
  · rw [if_pos hc]
    exact ⟨⟨fun _ => hc, fun _ => rfl⟩, fun hn => absurd hc hn⟩
  · rw [if_neg hc]
    refine ⟨⟨fun he => by simp at he, fun hcc => absurd hcc hc⟩, fun _ => ?_⟩
    exact congrArg Except.ok (getD_liveElems a index.toNat (by omega)).symm

/-- C7: `pop()` and `shift()` on a container with `length == 0` both fail
with the `EmptyContainer` error and produce no successor state — the guard
throws before any field of the container is touched. -/
theorem pop_shift_empty (a : Arr α) (h : a.size = 0) :
    pop a = .error ArrErr.emptyContainer ∧
      shift a = .error ArrErr.emptyContainer := by
  constructor
  · unfold pop
    rw [if_pos h]
  · unfold shift
    rw [if_pos h]

/-- Witness for C7: an empty `Array<int> arr(4)`. -/
theorem pop_shift_empty_witness :
    (mkArray 4 : Arr Int).size = 0 ∧
      (pop (mkArray 4 : Arr Int) = .error ArrErr.emptyContainer ∧
        shift (mkArray 4 : Arr Int) = .error ArrErr.emptyContainer) :=
  ⟨rfl, pop_shift_empty (mkArray 4 : Arr Int) rfl⟩

/-- C10: move-assigning a container to itself (`a = std::move(a)`) takes the
guarded path of `operator=(Array&&)` (`if (this != &other)` fails), so the
object is left completely unchanged and valid — its buffer is not released
and length, capacity, and elements are preserved. -/
theorem moveAssign_self_noop (a : Arr α) :
    moveAssign a a true = (a, a) ∧ (moveAssign a a true).1.size = a.size ∧
      (moveAssign a a true).1.capacity = a.capacity ∧
      liveElems (moveAssign a a true).1 = liveElems a :=
  ⟨rfl, rfl, rfl, rfl⟩

/-- C8: on any reachable container, `push(V)` immediately followed by `pop()`
returns `V`, restores the prior length, and leaves the prior elements
unchanged; the capacity after the round-trip is the capacity after the push
(pop never shrinks it), so it never decreases. -/
theorem push_pop_roundtrip (a : Arr α) (v : α) (h : wf a) :
    ∃ b : Arr α, pop (push a v) = .ok (v, b) ∧ b.size = a.size ∧
      liveElems b = liveElems a ∧ b.capacity = (push a v).capacity ∧
      a.capacity ≤ b.capacity ∧ wf b := by
  obtain ⟨hwfP, hsP, hlP, hcP, _, hgetP, htakeP⟩ := push_spec a v h
  have hne : (push a v).size ≠ 0 := by omega
  have hs1 : (push a v).size - 1 = a.size := by omega
  refine ⟨{ push a v with size := (push a v).size - 1 }, ?_, hs1, ?_, rfl, hcP, ?_, ?_⟩
  · rw [pop_ok (push a v) hne, hs1, hgetP]
  · show (push a v).data.take ((push a v).size - 1) = liveElems a
    rw [hs1, htakeP]
  · show (((push a v).size - 1 : Nat) : Int) ≤ (push a v).capacity
    have h1 := hwfP.1
    push_cast at h1 ⊢
    omega
  · exact hwfP.2

/-- Witness for C8: pushing `7` onto an empty `Array<int> arr(2)` and popping
it back. -/
theorem push_pop_roundtrip_witness :
    wf (mkArray 2 : Arr Int) ∧
    ∃ b : Arr Int, pop (push (mkArray 2) 7) = .ok (7, b) ∧
      b.size = (mkArray 2 : Arr Int).size ∧
      liveElems b = liveElems (mkArray 2 : Arr Int) ∧
      b.capacity = (push (mkArray 2 : Arr Int) 7).capacity ∧
      (mkArray 2 : Arr Int).capacity ≤ b.capacity ∧ wf b :=
  ⟨⟨by decide, by decide⟩, push_pop_roundtrip (mkArray 2) 7 ⟨by decide, by decide⟩⟩

/-- C9: on any reachable container, `unshift(V)` immediately followed by
`shift()` returns `V` and restores the prior logical contents: the same
length and the same elements in the same order. -/
theorem unshift_shift_roundtrip (a : Arr α) (v : α) (h : wf a) :
    ∃ b : Arr α, shift (unshift a v) = .ok (v, b) ∧ b.size = a.size ∧
      liveElems b = liveElems a ∧ wf b := by
  obtain ⟨hwfU, hsU, hlU, hcU⟩ := unshift_spec a v h
  have hne : (unshift a v).size ≠ 0 := by omega
  obtain ⟨hsh, hwfb, hlb⟩ := shift_spec (unshift a v) hwfU hne
  have hval : (liveElems (unshift a v)).getD 0 default = v := by
    rw [hlU]
    rfl
  refine ⟨_, by rw [hsh, hval], ?_, ?_, hwfb⟩
  · show (unshift a v).size - 1 = a.size
    omega
  · rw [hlb, hlU]
    rfl

/-- Witness for C9: unshifting `7` onto an empty `Array<int> arr(0)` (which
must first grow from capacity 0) and shifting it back off. -/
theorem unshift_shift_roundtrip_witness :
    wf (mkArray 0 : Arr Int) ∧
    ∃ b : Arr Int, shift (unshift (mkArray 0) 7) = .ok (7, b) ∧
      b.size = (mkArray 0 : Arr Int).size ∧
      liveElems b = liveElems (mkArray 0 : Arr Int) ∧ wf b :=
  ⟨⟨by decide, by decide⟩, unshift_shift_roundtrip (mkArray 0) 7 ⟨by decide, by decide⟩⟩

/-- C4 (amended): over unbounded integers the doubling loop always
terminates — for every `capacity ≥ 0` and `minCapacity > capacity`, after
finitely much fuel the loop `while (newCapacity < minCapacity)
newCapacity *= 2;`, started from `max(capacity, 1)`, has stopped at a value
`≥ minCapacity` and further fuel changes nothing.  (Under 32-bit machine
arithmetic this fails for pathological `minCapacity`; see the
counterexample `growLoop32_diverges`.) -/
theorem growLoop_terminates (capacity minCapacity : Int) (hc : 0 ≤ capacity)
    (h : capacity < minCapacity) :
    ∃ fuel : Nat, minCapacity ≤ growLoopFuel fuel (max capacity 1) minCapacity ∧
      ∀ g : Nat, fuel ≤ g →
        growLoopFuel g (max capacity 1) minCapacity =
          growLoopFuel fuel (max capacity 1) minCapacity := by
  have hmax := le_max_right capacity 1
  have hB : (0 : Int) < max capacity 1 := by omega
  obtain ⟨_, hm, _, _⟩ := growLoop_spec (max capacity 1) minCapacity hB
  refine ⟨minCapacity.toNat, hm, ?_⟩
  intro g hg
  exact growLoopFuel_stable minCapacity.toNat g _ minCapacity hB (by omega) hg

/-- Witness for C4's amended theorem at `capacity = 5`, `minCapacity = 7`. -/
theorem growLoop_terminates_witness :
    (0 : Int) ≤ 5 ∧ (5 : Int) < 7 ∧
    ∃ fuel : Nat, (7 : Int) ≤ growLoopFuel fuel (max 5 1) 7 ∧
      ∀ g : Nat, fuel ≤ g → growLoopFuel g (max 5 1) 7 = growLoopFuel fuel (max 5 1) 7 :=
  ⟨by decide, by decide, growLoop_terminates 5 7 (by decide) (by decide)⟩

theorem wrap32_of_range (x : Int) (h1 : -(2 ^ 31) ≤ x) (h2 : x < 2 ^ 31) :
    wrap32 x = x := by
  have e31 : (2 : Int) ^ 31 = 2147483648 := by norm_num
  have e32 : (2 : Int) ^ 32 = 4294967296 := by norm_num
  unfold wrap32
  rw [e31] at h1 h2 ⊢
  rw [e32, Int.emod_eq_of_lt (by omega) (by omega)]
  omega

theorem step32_inv (x : Int) (h : inv32 x) : inv32 (step32 x) := by
  rcases h with h0 | hneg | ⟨j, hj1, hj30, hx⟩
  · rw [h0]
    left
    decide
  · rw [hneg]
    left
    decide
  · rw [hx]
    by_cases h29 : j ≤ 29
    · right; right
      refine ⟨j + 1, by omega, by omega, ?_⟩
      show step32 (2 ^ j) = 2 ^ (j + 1)
      unfold step32
      rw [show (2 : Int) ^ j * 2 = 2 ^ (j + 1) by ring]
      apply wrap32_of_range
      · exact le_trans (by norm_num) (le_of_lt (pow_pos (by norm_num) (j + 1)))
      · calc (2 : Int) ^ (j + 1) ≤ 2 ^ 30 := pow_le_pow_right₀ (by norm_num) (by omega)
        _ < 2 ^ 31 := by norm_num
    · have hj' : j = 30 := by omega
      rw [hj']
      right; left
      decide

theorem inv32_lt (x : Int) (h : inv32 x) : x < 2147483647 := by
  rcases h with h0 | hneg | ⟨j, hj1, hj30, hx⟩
  · rw [h0]
    decide
  · rw [hneg]
    decide
  · rw [hx]
    calc (2 : Int) ^ j ≤ 2 ^ 30 := pow_le_pow_right₀ (by norm_num) hj30
    _ < 2147483647 := by norm_num

theorem inv32_iterate (k : Nat) : inv32 (step32^[k] 2) := by
  induction k with
  | zero =>
    rw [Function.iterate_zero_apply]
    right; right
    exact ⟨1, le_rfl, by omega, by norm_num⟩
  | succ k ih =>
    rw [Function.iterate_succ_apply']
    exact step32_inv _ ih

/-- Counterexample for C4 as stated: under 32-bit two's-complement
wraparound arithmetic the doubling loop does not terminate for the
representable input `capacity = 1`, `minCapacity = 2^31 - 1 = INT_MAX`.
The loop enters with `newCapacity = capacity * 2 = 2`, and no number of
iterations of its body ever makes the guard `newCapacity < minCapacity`
false: the value runs through `4, 8, …, 2^30`, overflows to `-2^31`, and
then sticks at `0` forever. -/
theorem growLoop32_diverges :
    ¬ ∃ k : Nat, (2147483647 : Int) ≤ step32^[k] 2 := by
  rintro ⟨k, hk⟩
  exact absurd hk (not_le.mpr (inv32_lt _ (inv32_iterate k)))

/-- C5: the end-to-end driver scenario of `main.cpp`: starting from
`Array<int> arr(5)`, pushing `1,2,3` gives `length=3, capacity=5`; pushing
`4,5,6` gives `length=6, capacity=10`; pushing `1,2,3` gives `length=9`;
`unshift(0)` gives contents `[0,1,2,3,4,5,6,1,2,3]` with `length=10`; `pop`
removes the trailing `3` and `shift` removes the leading `0`, leaving
`[1,2,3,4,5,6,1,2]`; then `findIndex(x == 2)` returns `1` and
`find(x > 3)` returns the element `4`. -/
theorem driver_scenario :
    arrStage1.size = 3 ∧ arrStage1.capacity = 5 ∧
    arrStage2.size = 6 ∧ arrStage2.capacity = 10 ∧
    arrStage3.size = 9 ∧
    arrStage4.size = 10 ∧ liveElems arrStage4 = [0, 1, 2, 3, 4, 5, 6, 1, 2, 3] ∧
    (driverFinal.map fun r => (r.1, r.2.1, liveElems r.2.2)) =
      .ok (3, 0, [1, 2, 3, 4, 5, 6, 1, 2]) ∧
    (driverFinal.map fun r => findIndex r.2.2 fun x => x == 2) = .ok 1 ∧
    (driverFinal.map fun r => find r.2.2 fun x => x > 3) = .ok (some 4) :=
  ⟨rfl, rfl, rfl, rfl, rfl, rfl, rfl, rfl, rfl, rfl⟩

theorem pushInv_mkArray (C : Int) (hC : 0 ≤ C) : pushInv C (mkArray C : Arr α) := by
  refine ⟨⟨?_, ?_⟩, fun _ => rfl, fun habs => absurd habs (by show ¬ 1 ≤ 0; decide)⟩
  · show ((0 : Nat) : Int) ≤ C
    push_cast
    omega
  · show (List.replicate C.toNat (default : α)).length = C.toNat
    exact List.length_replicate ..

theorem pushInv_push (C : Int) (hC : 0 ≤ C) (a : Arr α) (v : α)
    (hInv : pushInv C a) : pushInv C (push a v) := by
  obtain ⟨hwf, h0, h1⟩ := hInv
  obtain ⟨hwfP, hsP, hlP, hcP, hcapP, _, _⟩ := push_spec a v hwf
  refine ⟨hwfP, fun habs => absurd habs (by omega), fun _ => ?_⟩
  rw [hsP, hcapP]
  by_cases hfit : (a.size : Int) + 1 ≤ a.capacity
  · rw [ensureCapacity_noop a _ hfit]
    rcases Nat.eq_zero_or_pos a.size with hz | hpos
    · have hCeq := h0 hz
      have hC1 : (1 : Int) ≤ a.capacity := by
        rw [hz] at hfit
        push_cast at hfit
        omega
      have hB : max C 1 = C := max_eq_left (by omega)
      rw [hz]
      refine ⟨⟨0, by rw [pow_zero, mul_one, hB, hCeq]⟩, by push_cast; omega, ?_⟩
      intro j hj
      rw [hB, hCeq]
      exact le_mul_two_pow C j (by omega)
    · obtain ⟨⟨k, hk⟩, hle, hmin⟩ := h1 hpos
      refine ⟨⟨k, hk⟩, by push_cast at hfit ⊢; omega, ?_⟩
      intro j hj
      push_cast at hj
      exact hmin j (by omega)
  · rw [ensureCapacity_grow a _ hfit]
    rcases Nat.eq_zero_or_pos a.size with hz | hpos
    · have hCeq := h0 hz
      have hcap0 : (0 : Int) ≤ a.capacity := le_trans (Int.ofNat_nonneg _) hwf.1
      have hc0 : a.capacity = 0 := by
        rw [hz] at hfit
        push_cast at hfit
        omega
      rw [hz, if_neg (by omega)]
      show minChainCap C (0 + 1) (growLoop 1 (((0 : Nat) : Int) + 1))
      have h01 : ((0 : Nat) : Int) + 1 = 1 := by norm_num
      rw [h01, growLoop_of_ge 1 1 (by omega) (by omega)]
      have hB : max C 1 = 1 := max_eq_right (by omega)
      refine ⟨⟨0, by rw [pow_zero, mul_one, hB]⟩, by norm_num, ?_⟩
      intro j hj
      rw [hB]
      exact le_mul_two_pow 1 j (by norm_num)
    · obtain ⟨⟨k, hk⟩, hle, hmin⟩ := h1 hpos
      have hcapeq : a.capacity = (a.size : Int) := by
        push_cast at hfit
        have := hwf.1
        omega
      have hcappos : 0 < a.capacity := by
        rw [hcapeq]
        omega
      rw [if_pos hcappos]
      show minChainCap C (a.size + 1) (growLoop (a.capacity * 2) ((a.size : Int) + 1))
      have hstop : growLoop (a.capacity * 2) ((a.size : Int) + 1) = a.capacity * 2 :=
        growLoop_of_ge _ _ (by omega) (by rw [hcapeq]; omega)
      rw [hstop]
      have hBpos : (0 : Int) < max C 1 := by
        have := le_max_right C 1
        omega
      refine ⟨⟨k + 1, by rw [hk]; ring⟩, ?_, ?_⟩
      · push_cast
        rw [hcapeq]
        omega
      · intro j hj
        push_cast at hj
        have hchain : max C 1 * 2 ^ k < max C 1 * 2 ^ j := by
          calc max C 1 * 2 ^ k = a.capacity := hk.symm
          _ = (a.size : Int) := hcapeq
          _ < (a.size : Int) + 1 := by omega
          _ ≤ max C 1 * 2 ^ j := hj
        have hpow : (2 : Int) ^ k < 2 ^ j := lt_of_mul_lt_mul_left hchain (le_of_lt hBpos)
        have hkj : k < j := by
          by_contra hcon
          push_neg at hcon
          exact absurd hpow (not_lt.mpr (pow_le_pow_right₀ (by norm_num) hcon))
        calc a.capacity * 2 = max C 1 * 2 ^ (k + 1) := by rw [hk]; ring
        _ ≤ max C 1 * 2 ^ j :=
          mul_le_mul_of_nonneg_left (pow_le_pow_right₀ (by norm_num) (by omega))
            (le_of_lt hBpos)

theorem foldl_push_inv (C : Int) (hC : 0 ≤ C) (vs : List α) :
    ∀ a : Arr α, pushInv C a →
      pushInv C (vs.foldl push a) ∧
        liveElems (vs.foldl push a) = liveElems a ++ vs ∧
        (vs.foldl push a).size = a.size + vs.length := by
  induction vs with
  | nil =>
    intro a ha
    exact ⟨ha, by simp, by simp⟩
  | cons x xs ih =>
    intro a ha
    obtain ⟨hwfP, hsP, hlP, _, _, _, _⟩ := push_spec a x ha.1
    obtain ⟨hI, hl, hs⟩ := ih (push a x) (pushInv_push C hC a x ha)
    refine ⟨hI, ?_, ?_⟩
    · show liveElems (xs.foldl push (push a x)) = liveElems a ++ x :: xs
      rw [hl, hlP]
      simp
    · show (xs.foldl push (push a x)).size = a.size + (x :: xs).length
      rw [hs, hsP, List.length_cons]
      omega

/-- C2: for every initial capacity `C ≥ 0` and every sequence of pushes,
after each push (that is, after any nonempty prefix of `r` pushes) the
capacity equals the smallest value of the form `max(C,1)·2^k` that is at
least the current length `r`, and the stored elements are exactly the pushed
values in insertion order — none lost or reordered. -/
theorem push_growth_invariant (C : Int) (hC : 0 ≤ C) (vs : List α) (r : Nat)
    (h1 : 1 ≤ r) (hr : r ≤ vs.length) :
    (pushSeq C (vs.take r)).size = r ∧
      liveElems (pushSeq C (vs.take r)) = vs.take r ∧
      minChainCap C r (pushSeq C (vs.take r)).capacity := by
  obtain ⟨hI, hl, hs⟩ := foldl_push_inv C hC (vs.take r) (mkArray C) (pushInv_mkArray C hC)
  have hlen : (vs.take r).length = r := by
    rw [List.length_take]
    omega
  have hsize : (pushSeq C (vs.take r)).size = r := by
    show ((vs.take r).foldl push (mkArray C : Arr α)).size = r
    rw [hs]
    show 0 + (vs.take r).length = r
    rw [hlen]
    omega
  refine ⟨hsize, ?_, ?_⟩
  · show liveElems ((vs.take r).foldl push (mkArray C : Arr α)) = vs.take r
    rw [hl]
    show liveElems (mkArray C : Arr α) ++ vs.take r = vs.take r
    rw [show liveElems (mkArray C : Arr α) = [] from rfl]
    simp
  · have hs' : ((vs.take r).foldl push (mkArray C : Arr α)).size = r := hsize
    have hmc := hI.2.2 (by rw [hs']; exact h1)
    rw [hs'] at hmc
    exact hmc

/-- Witness for C2 at the spec's own example: initial capacity 5, six pushes;
also checks the concrete doubling 5 → 10 (and that three pushes leave the
capacity at 5). -/
theorem push_growth_invariant_witness :
    (0 : Int) ≤ 5 ∧ 1 ≤ 6 ∧ 6 ≤ ([1, 2, 3, 4, 5, 6] : List Int).length ∧
    ((pushSeq 5 (([1, 2, 3, 4, 5, 6] : List Int).take 6)).size = 6 ∧
      liveElems (pushSeq 5 (([1, 2, 3, 4, 5, 6] : List Int).take 6)) =
        ([1, 2, 3, 4, 5, 6] : List Int).take 6 ∧
      minChainCap 5 6 (pushSeq 5 (([1, 2, 3, 4, 5, 6] : List Int).take 6)).capacity) ∧
    (pushSeq 5 ([1, 2, 3] : List Int)).capacity = 5 ∧
    (pushSeq 5 ([1, 2, 3, 4, 5, 6] : List Int)).capacity = 10 :=
  ⟨by decide, by decide, by decide,
    push_growth_invariant 5 (by decide) [1, 2, 3, 4, 5, 6] 6 (by decide) (by decide),
    by decide, by decide⟩

end CppArray
